import Mathlib

/-!
# umlbox — verification of the boot-configuration protocol and guest supervisor

Shallow embedding of the umlbox core:

* the configuration data model (`config.proto`),
* the serialized block-image format produced by the host (`umlbox` script:
  protobuf payload behind a `(magic, length)` header, zero-padded to a
  512-byte multiple) and its consumption by the guest (`init.c` `main`),
* the host orchestrator's mount ordering and timeout-escalation protocol
  (`umlbox` script), and
* the guest supervisor's execution state machine (`init.c`: `handle_mount`,
  `handle_run`, `readall`, `hostify`, `set_limits`).

Byte strings are modelled as `List Nat` with every element below 256;
machine integers are `Nat`/`Int` with explicit `% 2^w` where overflow
matters.
-/

namespace Umlbox

/-! ## Data model (`config.proto`) -/

/-- A byte string (C string / protobuf string payload). -/
abbrev Str := List Nat

/-- `message EnvVar`: one environment variable assignment. -/
structure EnvVar where
  key : Str
  value : Str
  deriving DecidableEq, Repr

/-- `message Limit`: one resource limit.  `resource` is a proto3 enum
(`int32` on the wire); `soft`/`hard` are `int64`, negative meaning
`RLIM_INFINITY`. -/
structure Limit where
  resource : Int
  soft : Int
  hard : Int
  deriving DecidableEq, Repr

/-- `message Mount`: one mount entry. -/
structure Mount where
  target : Str
  source : Str
  fstype : Str
  data : Str
  ro : Bool
  nosuid : Bool
  deriving DecidableEq, Repr

/-- `message Run`: one command to execute. -/
structure Run where
  daemon : Bool
  cmd : Str
  arg : List Str
  cwd : Str
  input : Str
  output : Str
  error : Str
  cat_output : Bool
  env : List EnvVar
  user : Bool
  uid : Int
  gid : Int
  limit : List Limit
  deriving DecidableEq, Repr

/-- `message Config`: the root configuration record. -/
structure Config where
  tty_raw : List Str
  mount : List Mount
  run : List Run
  random : Str
  deriving DecidableEq, Repr

/-- Default (all-fields-absent) `EnvVar`, i.e. proto3 defaults. -/
def defEnvVar : EnvVar := ⟨[], []⟩

/-- Default `Limit`. -/
def defLimit : Limit := ⟨0, 0, 0⟩

/-- Default `Mount`. -/
def defMount : Mount := ⟨[], [], [], [], false, false⟩

/-- Default `Run`. -/
def defRun : Run := ⟨false, [], [], [], [], [], [], false, [], false, 0, 0, []⟩

/-- Default `Config`. -/
def defConfig : Config := ⟨[], [], [], []⟩

/-! ## Varint layer of the payload codec

Modelled from the spec: the payload codec itself is generated by `protoc`
(`config.pb-c.c` / `config_pb2.py`, built by the Makefile but not part of the
repository sources); the spec only requires a self-describing, stable
encoding with round-trip fidelity.  We model the standard proto3 wire
format that those generated codecs implement: base-128 varints,
length-delimited fields, default-valued scalar fields omitted. -/

/-- Little-endian base-128 varint encoding, fuel-indexed so that it is
structurally recursive (and hence kernel-reducible).  `encVarintF (n+1) n`
always has enough fuel. -/
def encVarintF : Nat → Nat → List Nat
  | 0, _ => []
  | f + 1, n => if n < 128 then [n] else (n % 128 + 128) :: encVarintF f (n / 128)

/-- Varint encoding of a natural number. -/
def encVarint (n : Nat) : List Nat := encVarintF (n + 1) n

/-- Varint decoding: returns the decoded value and the remaining bytes. -/
def decVarint : List Nat → Option (Nat × List Nat)
  | [] => none
  | b :: rest =>
    if b < 128 then some (b, rest)
    else
      match decVarint rest with
      | some (n, rest') => some (n * 128 + (b - 128), rest')
      | none => none

theorem encVarintF_stable (f : Nat) : ∀ f' n, n < f → n < f' →
    encVarintF f n = encVarintF f' n := by
  induction f with
  | zero => intro f' n h _; omega
  | succ f ih =>
    intro f' n h h'
    match f', h' with
    | f' + 1, h' =>
      simp only [encVarintF]
      by_cases hn : n < 128
      · simp [hn]
      · simp only [hn, if_false]
        have hdiv : n / 128 < n := Nat.div_lt_self (by omega) (by omega)
        rw [ih f' (n / 128) (by omega) (by omega)]

/-- Unfolding equation for `encVarint`. -/
theorem encVarint_eq (n : Nat) :
    encVarint n = if n < 128 then [n] else (n % 128 + 128) :: encVarint (n / 128) := by
  show encVarintF (n + 1) n = _
  simp only [encVarintF]
  by_cases hn : n < 128
  · simp [hn]
  · simp only [hn, if_false]
    have hdiv : n / 128 < n := Nat.div_lt_self (by omega) (by omega)
    rw [encVarintF_stable n (n / 128 + 1) (n / 128) (by omega) (by omega)]
    rfl

/-- Varints round-trip, with any continuation. -/
theorem decVarint_enc (n : Nat) : ∀ t : List Nat,
    decVarint (encVarint n ++ t) = some (n, t) := by
  induction n using Nat.strong_induction_on with
  | _ n ih =>
    intro t
    rw [encVarint_eq]
    by_cases hn : n < 128
    · simp [hn, decVarint]
    · have hdiv : n / 128 < n := Nat.div_lt_self (by omega) (by omega)
      simp only [hn, if_false, List.cons_append, decVarint]
      have h128 : ¬ n % 128 + 128 < 128 := by omega
      simp only [h128, if_false, ih (n / 128) hdiv t]
      have : n / 128 * 128 + (n % 128 + 128 - 128) = n := by omega
      rw [this]

/-- A successful varint decode strictly consumes input. -/
theorem decVarint_length : ∀ bs n rest, decVarint bs = some (n, rest) →
    rest.length < bs.length := by
  intro bs
  induction bs with
  | nil => intro n rest h; simp [decVarint] at h
  | cons b rest' ih =>
    intro n rest h
    simp only [decVarint] at h
    by_cases hb : b < 128
    · simp only [hb, if_true] at h
      simp only [Option.some.injEq, Prod.mk.injEq] at h
      simp [← h.2]
    · simp only [hb, if_false] at h
      match hrec : decVarint rest' with
      | some (m, r') =>
        rw [hrec] at h
        simp only [Option.some.injEq, Prod.mk.injEq] at h
        have := ih m r' hrec
        simp [← h.2]
        omega
      | none => rw [hrec] at h; exact absurd h (by simp)

/-- Every byte of a varint encoding is below 256. -/
theorem encVarint_bytes_lt (n : Nat) : ∀ b ∈ encVarint n, b < 256 := by
  induction n using Nat.strong_induction_on with
  | _ n ih =>
    rw [encVarint_eq]
    by_cases hn : n < 128
    · simp only [hn, if_true, List.mem_singleton]
      omega
    · have hdiv : n / 128 < n := Nat.div_lt_self (by omega) (by omega)
      simp only [hn, if_false, List.mem_cons]
      rintro b (rfl | hb)
      · omega
      · exact ih (n / 128) hdiv b hb

/-! ## Record layer of the payload codec

A proto3 message body is a sequence of records, each a field key
(`fieldNo * 8 + wireType`) followed by a value.  The schema only uses wire
types 0 (varint) and 2 (length-delimited); the generated parser also
accepts fixed-width records, which no field of this schema uses, so the
model rejects them. -/

/-- A wire value: a varint or a length-delimited byte string. -/
inductive WireVal where
  | vint (n : Nat)
  | ldelim (bs : Str)
  deriving DecidableEq, Repr

/-- One parsed record: field number and wire value. -/
abbrev Rec := Nat × WireVal

/-- Parse a message body into records, fuel-indexed for structural
recursion.  Fuel `bs.length + 1` always suffices because every record
consumes at least one byte. -/
def parseRecordsF : Nat → List Nat → Option (List Rec)
  | 0, _ => none
  | f + 1, bs =>
    if bs = [] then some []
    else
      match decVarint bs with
      | none => none
      | some (key, r1) =>
        if key % 8 = 0 then
          match decVarint r1 with
          | none => none
          | some (n, r2) => (parseRecordsF f r2).map (fun rs => (key / 8, .vint n) :: rs)
        else if key % 8 = 2 then
          match decVarint r1 with
          | none => none
          | some (len, r2) =>
            if len ≤ r2.length then
              (parseRecordsF f (r2.drop len)).map
                (fun rs => (key / 8, .ldelim (r2.take len)) :: rs)
            else none
        else none

/-- Parse a message body into records. -/
def parseRecords (bs : List Nat) : Option (List Rec) :=
  parseRecordsF (bs.length + 1) bs

theorem parseRecordsF_stable (f : Nat) : ∀ f' bs, bs.length < f → bs.length < f' →
    parseRecordsF f bs = parseRecordsF f' bs := by
  induction f with
  | zero => intro f' bs h _; omega
  | succ f ih =>
    intro f' bs h h'
    match f', h' with
    | f' + 1, h' =>
      simp only [parseRecordsF]
      by_cases hbs : bs = []
      · simp [hbs]
      · simp only [hbs, if_false]
        match hk : decVarint bs with
        | none => rfl
        | some (key, r1) =>
          have hr1 : r1.length < bs.length := decVarint_length bs key r1 hk
          by_cases h0 : key % 8 = 0
          · simp only [h0, if_true]
            match hv : decVarint r1 with
            | none => rfl
            | some (n, r2) =>
              have hr2 : r2.length < r1.length := decVarint_length r1 n r2 hv
              dsimp only
              rw [ih f' r2 (by omega) (by omega)]
          · simp only [h0, if_false]
            by_cases h2 : key % 8 = 2
            · simp only [h2, if_true]
              match hv : decVarint r1 with
              | none => rfl
              | some (len, r2) =>
                have hr2 : r2.length < r1.length := decVarint_length r1 len r2 hv
                by_cases hlen : len ≤ r2.length
                · simp only [hlen, if_true]
                  have : (r2.drop len).length ≤ r2.length := by
                    simp [List.length_drop]
                  rw [ih f' (r2.drop len) (by omega) (by omega)]
                · simp [hlen]
            · simp [h2]

/-- `parseRecords` of the empty body is the empty record list. -/
theorem parseRecords_nil : parseRecords [] = some [] := rfl

/-! ## Field encoders

These mirror what the generated protobuf serializers emit: fields in
field-number order, default-valued singular scalars omitted, every element
of a repeated field emitted. -/

/-- Encode a field key. -/
def encKey (field wt : Nat) : List Nat := encVarint (field * 8 + wt)

/-- Encode a length-delimited field (string/bytes/submessage). -/
def encLd (field : Nat) (s : List Nat) : List Nat :=
  encKey field 2 ++ encVarint s.length ++ s

/-- Encode a singular string field (omitted when empty, per proto3). -/
def encStrOpt (field : Nat) (s : Str) : List Nat :=
  if s = [] then [] else encLd field s

/-- Encode a singular bool field (omitted when false). -/
def encBool (field : Nat) (b : Bool) : List Nat :=
  if b then encKey field 0 ++ encVarint 1 else []

/-- A signed value as the 64-bit unsigned varint payload used by proto3
`int32`/`int64`/enum encoding. -/
def intWire (v : Int) : Nat := (v % (2 ^ 64 : Int)).toNat

/-- Encode a singular int32/int64/enum field (omitted when zero). -/
def encIntField (field : Nat) (v : Int) : List Nat :=
  if v = 0 then [] else encKey field 0 ++ encVarint (intWire v)

/-- Records produced by `encStrOpt`. -/
def strOptRecs (field : Nat) (s : Str) : List Rec :=
  if s = [] then [] else [(field, .ldelim s)]

/-- Records produced by `encBool`. -/
def boolRecs (field : Nat) (b : Bool) : List Rec :=
  if b then [(field, .vint 1)] else []

/-- Records produced by `encIntField`. -/
def intRecs (field : Nat) (v : Int) : List Rec :=
  if v = 0 then [] else [(field, .vint (intWire v))]

/-! ## Message encoders (`serialize`) -/

/-- Serialize an `EnvVar` message body. -/
def packEnvVar (e : EnvVar) : List Nat :=
  encStrOpt 1 e.key ++ encStrOpt 2 e.value

/-- Serialize a `Limit` message body. -/
def packLimit (l : Limit) : List Nat :=
  encIntField 1 l.resource ++ encIntField 2 l.soft ++ encIntField 3 l.hard

/-- Serialize a `Mount` message body. -/
def packMount (m : Mount) : List Nat :=
  encStrOpt 1 m.target ++ encStrOpt 2 m.source ++ encStrOpt 3 m.fstype ++
    encStrOpt 4 m.data ++ encBool 5 m.ro ++ encBool 6 m.nosuid

/-- Serialize a `Run` message body. -/
def packRun (r : Run) : List Nat :=
  encBool 1 r.daemon ++ encStrOpt 2 r.cmd ++
    (r.arg.flatMap fun a => encLd 3 a) ++
    encStrOpt 4 r.cwd ++ encStrOpt 5 r.input ++ encStrOpt 6 r.output ++
    encStrOpt 7 r.error ++ encBool 8 r.cat_output ++
    (r.env.flatMap fun e => encLd 9 (packEnvVar e)) ++
    encBool 10 r.user ++ encIntField 11 r.uid ++ encIntField 12 r.gid ++
    (r.limit.flatMap fun l => encLd 13 (packLimit l))

/-- Serialize a `Config` message body: the protobuf payload of the image. -/
def packConfig (c : Config) : List Nat :=
  (c.tty_raw.flatMap fun t => encLd 1 t) ++
    (c.mount.flatMap fun m => encLd 2 (packMount m)) ++
    (c.run.flatMap fun r => encLd 3 (packRun r)) ++
    (if c.random = [] then [] else encLd 4 c.random)

/-! ## Message decoders (`deserialize` payload side)

Each message is decoded by folding its records over a default-initialized
struct, as `protobuf-c`'s `config__unpack` does: last value wins for
singular fields, repeated fields append, unknown fields are skipped, and a
malformed submessage fails the whole decode. -/

/-- Decode the unsigned wire value of an `int32` field: truncate to 32 bits
and sign-extend. -/
def toInt32 (n : Nat) : Int :=
  let m : Nat := n % 2 ^ 32
  if m < 2 ^ 31 then (m : Int) else (m : Int) - 2 ^ 32

/-- Decode the unsigned wire value of an `int64` field. -/
def toInt64 (n : Nat) : Int :=
  let m : Nat := n % 2 ^ 64
  if m < 2 ^ 63 then (m : Int) else (m : Int) - 2 ^ 64

/-- Fold records over a message state, propagating submessage failure. -/
def foldRecs (upd : α → Rec → Option α) : α → List Rec → Option α
  | a, [] => some a
  | a, r :: rs =>
    match upd a r with
    | none => none
    | some a' => foldRecs upd a' rs

/-- Apply one record to an `EnvVar` under construction. -/
def updEnvVar (e : EnvVar) : Rec → EnvVar
  | (1, .ldelim s) => { e with key := s }
  | (2, .ldelim s) => { e with value := s }
  | _ => e

/-- Decode an `EnvVar` from its records. -/
def envVarOfRecs (rs : List Rec) : EnvVar := rs.foldl updEnvVar defEnvVar

/-- Apply one record to a `Limit` under construction. -/
def updLimit (l : Limit) : Rec → Limit
  | (1, .vint n) => { l with resource := toInt32 n }
  | (2, .vint n) => { l with soft := toInt64 n }
  | (3, .vint n) => { l with hard := toInt64 n }
  | _ => l

/-- Decode a `Limit` from its records. -/
def limitOfRecs (rs : List Rec) : Limit := rs.foldl updLimit defLimit

/-- Apply one record to a `Mount` under construction. -/
def updMount (m : Mount) : Rec → Mount
  | (1, .ldelim s) => { m with target := s }
  | (2, .ldelim s) => { m with source := s }
  | (3, .ldelim s) => { m with fstype := s }
  | (4, .ldelim s) => { m with data := s }
  | (5, .vint n) => { m with ro := n != 0 }
  | (6, .vint n) => { m with nosuid := n != 0 }
  | _ => m

/-- Decode a `Mount` from its records. -/
def mountOfRecs (rs : List Rec) : Mount := rs.foldl updMount defMount

/-- Apply one record to a `Run` under construction. -/
def updRun (r : Run) : Rec → Option Run
  | (f, .vint n) =>
    if f = 1 then some { r with daemon := n != 0 }
    else if f = 8 then some { r with cat_output := n != 0 }
    else if f = 10 then some { r with user := n != 0 }
    else if f = 11 then some { r with uid := toInt32 n }
    else if f = 12 then some { r with gid := toInt32 n }
    else some r
  | (f, .ldelim s) =>
    if f = 2 then some { r with cmd := s }
    else if f = 3 then some { r with arg := r.arg ++ [s] }
    else if f = 4 then some { r with cwd := s }
    else if f = 5 then some { r with input := s }
    else if f = 6 then some { r with output := s }
    else if f = 7 then some { r with error := s }
    else if f = 9 then
      (parseRecords s).map fun rs => { r with env := r.env ++ [envVarOfRecs rs] }
    else if f = 13 then
      (parseRecords s).map fun rs => { r with limit := r.limit ++ [limitOfRecs rs] }
    else some r

/-- Apply one record to a `Config` under construction. -/
def updConfig (c : Config) : Rec → Option Config
  | (_, .vint _) => some c
  | (f, .ldelim s) =>
    if f = 1 then some { c with tty_raw := c.tty_raw ++ [s] }
    else if f = 2 then
      (parseRecords s).map fun rs => { c with mount := c.mount ++ [mountOfRecs rs] }
    else if f = 3 then
      (parseRecords s).bind fun rs =>
        (foldRecs updRun defRun rs).map fun r => { c with run := c.run ++ [r] }
    else if f = 4 then some { c with random := s }
    else some c

/-- Decode a `Config` from a payload byte string (`config__unpack`). -/
def unpackConfig (bs : List Nat) : Option Config :=
  (parseRecords bs).bind (foldRecs updConfig defConfig)

/-! ## Round-trip of the record layer -/

/-- `Chunk A ra`: prepending byte chunk `A` to any message body prepends
records `ra` to its parse. -/
def Chunk (A : List Nat) (ra : List Rec) : Prop :=
  ∀ rest, parseRecords (A ++ rest) = (parseRecords rest).map (fun rs => ra ++ rs)

/-- One-step unfolding of `parseRecords` on a nonempty body. -/
theorem parseRecords_step (bs : List Nat) (hne : bs ≠ []) :
    parseRecords bs =
      match decVarint bs with
      | none => none
      | some (key, r1) =>
        if key % 8 = 0 then
          match decVarint r1 with
          | none => none
          | some (n, r2) => (parseRecords r2).map (fun rs => (key / 8, .vint n) :: rs)
        else if key % 8 = 2 then
          match decVarint r1 with
          | none => none
          | some (len, r2) =>
            if len ≤ r2.length then
              (parseRecords (r2.drop len)).map
                (fun rs => (key / 8, .ldelim (r2.take len)) :: rs)
            else none
        else none := by
  show parseRecordsF (bs.length + 1) bs = _
  conv_lhs => rw [parseRecordsF]
  simp only [hne, if_false]
  match hk : decVarint bs with
  | none => rfl
  | some (key, r1) =>
    have hr1 : r1.length < bs.length := decVarint_length bs key r1 hk
    by_cases h0 : key % 8 = 0
    · simp only [h0, if_true]
      match hv : decVarint r1 with
      | none => rfl
      | some (n, r2) =>
        have hr2 : r2.length < r1.length := decVarint_length r1 n r2 hv
        dsimp only
        rw [parseRecordsF_stable bs.length (r2.length + 1) r2 (by omega) (by omega)]
        rfl
    · simp only [h0, if_false]
      by_cases h2 : key % 8 = 2
      · simp only [h2, if_true]
        match hv : decVarint r1 with
        | none => rfl
        | some (len, r2) =>
          have hr2 : r2.length < r1.length := decVarint_length r1 len r2 hv
          dsimp only
          by_cases hlen : len ≤ r2.length
          · simp only [hlen, if_true]
            have hd : (r2.drop len).length ≤ r2.length := by simp [List.length_drop]
            rw [parseRecordsF_stable bs.length ((r2.drop len).length + 1) (r2.drop len)
              (by omega) (by omega)]
            rfl
          · simp [hlen]
      · simp [h2]

/-- The empty chunk contributes no records. -/
theorem chunk_nil : Chunk [] [] := by
  intro rest
  simp only [List.nil_append]
  cases parseRecords rest <;> simp

/-- Chunks compose by concatenation. -/
theorem chunk_append {A ra B rb} (hA : Chunk A ra) (hB : Chunk B rb) :
    Chunk (A ++ B) (ra ++ rb) := by
  intro rest
  rw [List.append_assoc, hA (B ++ rest), hB rest]
  cases parseRecords rest <;> simp

/-- A varint encoding is never empty. -/
theorem encVarint_ne_nil (n : Nat) : encVarint n ≠ [] := by
  rw [encVarint_eq]
  by_cases hn : n < 128 <;> simp [hn]

/-- A length-delimited field parses to its one record. -/
theorem chunk_ld (f : Nat) (s : List Nat) : Chunk (encLd f s) [(f, .ldelim s)] := by
  intro rest
  have hne : encLd f s ++ rest ≠ [] := by
    simp only [encLd, encKey, List.append_assoc]
    intro h
    exact encVarint_ne_nil (f * 8 + 2) (List.append_eq_nil.mp h).1
  rw [parseRecords_step _ hne]
  have h1 : encLd f s ++ rest =
      encVarint (f * 8 + 2) ++ (encVarint s.length ++ (s ++ rest)) := by
    simp [encLd, encKey, List.append_assoc]
  rw [h1, decVarint_enc]
  have hm : (f * 8 + 2) % 8 = 2 := by omega
  have hd : (f * 8 + 2) / 8 = f := by omega
  have hm0 : ¬ (f * 8 + 2) % 8 = 0 := by omega
  simp only [hm0, if_false, hm, if_true, decVarint_enc, hd]
  have hle : s.length ≤ (s ++ rest).length := by simp
  simp only [hle, if_true]
  rw [List.take_left' rfl, List.drop_left' rfl]
  cases parseRecords rest <;> simp

/-- A varint field parses to its one record. -/
theorem chunk_vint (f n : Nat) : Chunk (encKey f 0 ++ encVarint n) [(f, .vint n)] := by
  intro rest
  have hne : (encKey f 0 ++ encVarint n) ++ rest ≠ [] := by
    simp only [encKey, List.append_assoc]
    intro h
    exact encVarint_ne_nil (f * 8 + 0) (List.append_eq_nil.mp h).1
  rw [parseRecords_step _ hne]
  have h1 : (encKey f 0 ++ encVarint n) ++ rest =
      encVarint (f * 8 + 0) ++ (encVarint n ++ rest) := by
    simp [encKey, List.append_assoc]
  rw [h1, decVarint_enc]
  have hm : (f * 8 + 0) % 8 = 0 := by omega
  have hd : (f * 8 + 0) / 8 = f := by omega
  simp only [hm, if_true, decVarint_enc, hd]
  cases parseRecords rest <;> simp

/-- An optional string field parses to its records. -/
theorem chunk_strOpt (f : Nat) (s : Str) : Chunk (encStrOpt f s) (strOptRecs f s) := by
  by_cases h : s = []
  · simp only [encStrOpt, strOptRecs, h, if_true]
    exact chunk_nil
  · simp only [encStrOpt, strOptRecs, h, if_false]
    exact chunk_ld f s

/-- An optional bool field parses to its records. -/
theorem chunk_bool (f : Nat) (b : Bool) : Chunk (encBool f b) (boolRecs f b) := by
  cases b
  · simpa only [encBool, boolRecs, if_neg Bool.false_ne_true] using chunk_nil
  · simpa only [encBool, boolRecs, if_pos rfl] using chunk_vint f 1

/-- An optional integer field parses to its records. -/
theorem chunk_int (f : Nat) (v : Int) : Chunk (encIntField f v) (intRecs f v) := by
  by_cases h : v = 0
  · simp only [encIntField, intRecs, h, if_pos rfl]
    exact chunk_nil
  · simp only [encIntField, intRecs, h, if_false]
    exact chunk_vint f (intWire v)

/-- A repeated length-delimited field parses to one record per element. -/
theorem chunk_flatMap_ld (f : Nat) (pk : α → List Nat) (xs : List α) :
    Chunk (xs.flatMap fun x => encLd f (pk x)) (xs.map fun x => (f, .ldelim (pk x))) := by
  induction xs with
  | nil => simpa using chunk_nil
  | cons x xs ih =>
    simpa [List.flatMap_cons] using chunk_append (chunk_ld f (pk x)) ih

/-- A chunk standing alone parses to exactly its records. -/
theorem parseRecords_of_chunk {A ra} (h : Chunk A ra) : parseRecords A = some ra := by
  have := h []
  simpa [parseRecords_nil] using this

/-! ## Round-trip of the message layer -/

/-- The records produced by `packEnvVar`. -/
def envVarRecs (e : EnvVar) : List Rec :=
  strOptRecs 1 e.key ++ strOptRecs 2 e.value

/-- The records produced by `packLimit`. -/
def limitRecs (l : Limit) : List Rec :=
  intRecs 1 l.resource ++ intRecs 2 l.soft ++ intRecs 3 l.hard

/-- The records produced by `packMount`. -/
def mountRecs (m : Mount) : List Rec :=
  strOptRecs 1 m.target ++ strOptRecs 2 m.source ++ strOptRecs 3 m.fstype ++
    strOptRecs 4 m.data ++ boolRecs 5 m.ro ++ boolRecs 6 m.nosuid

/-- The records produced by `packRun`. -/
def runRecs (r : Run) : List Rec :=
  boolRecs 1 r.daemon ++ strOptRecs 2 r.cmd ++
    (r.arg.map fun a => (3, .ldelim a)) ++
    strOptRecs 4 r.cwd ++ strOptRecs 5 r.input ++ strOptRecs 6 r.output ++
    strOptRecs 7 r.error ++ boolRecs 8 r.cat_output ++
    (r.env.map fun e => (9, .ldelim (packEnvVar e))) ++
    boolRecs 10 r.user ++ intRecs 11 r.uid ++ intRecs 12 r.gid ++
    (r.limit.map fun l => (13, .ldelim (packLimit l)))

/-- The records produced by `packConfig`. -/
def configRecs (c : Config) : List Rec :=
  (c.tty_raw.map fun t => (1, .ldelim t)) ++
    (c.mount.map fun m => (2, .ldelim (packMount m))) ++
    (c.run.map fun r => (3, .ldelim (packRun r))) ++
    strOptRecs 4 c.random

theorem chunk_packEnvVar (e : EnvVar) : Chunk (packEnvVar e) (envVarRecs e) :=
  chunk_append (chunk_strOpt 1 e.key) (chunk_strOpt 2 e.value)

theorem chunk_packLimit (l : Limit) : Chunk (packLimit l) (limitRecs l) :=
  chunk_append (chunk_append (chunk_int 1 l.resource) (chunk_int 2 l.soft))
    (chunk_int 3 l.hard)

theorem chunk_packMount (m : Mount) : Chunk (packMount m) (mountRecs m) := by
  unfold packMount mountRecs
  exact chunk_append (chunk_append (chunk_append (chunk_append (chunk_append
    (chunk_strOpt 1 m.target) (chunk_strOpt 2 m.source)) (chunk_strOpt 3 m.fstype))
    (chunk_strOpt 4 m.data)) (chunk_bool 5 m.ro)) (chunk_bool 6 m.nosuid)

theorem chunk_packRun (r : Run) : Chunk (packRun r) (runRecs r) := by
  unfold packRun runRecs
  refine chunk_append (chunk_append (chunk_append (chunk_append (chunk_append
    (chunk_append (chunk_append (chunk_append (chunk_append (chunk_append
    (chunk_append (chunk_append
      (chunk_bool 1 r.daemon) (chunk_strOpt 2 r.cmd)) ?_) (chunk_strOpt 4 r.cwd))
      (chunk_strOpt 5 r.input)) (chunk_strOpt 6 r.output)) (chunk_strOpt 7 r.error))
      (chunk_bool 8 r.cat_output)) ?_) (chunk_bool 10 r.user))
      (chunk_int 11 r.uid)) (chunk_int 12 r.gid)) ?_
  · simpa using chunk_flatMap_ld 3 (fun a => a) r.arg
  · exact chunk_flatMap_ld 9 packEnvVar r.env
  · exact chunk_flatMap_ld 13 packLimit r.limit

theorem chunk_packConfig (c : Config) : Chunk (packConfig c) (configRecs c) := by
  unfold packConfig configRecs
  refine chunk_append (chunk_append (chunk_append ?_ ?_) ?_) ?_
  · simpa using chunk_flatMap_ld 1 (fun t => t) c.tty_raw
  · exact chunk_flatMap_ld 2 packMount c.mount
  · exact chunk_flatMap_ld 3 packRun c.run
  · exact chunk_strOpt 4 c.random

/-- The parse of a serialized `Config` payload. -/
theorem parseRecords_packConfig (c : Config) :
    parseRecords (packConfig c) = some (configRecs c) :=
  parseRecords_of_chunk (chunk_packConfig c)

/-! ## Well-formedness

`configWF` is what the spec calls a well-formed `Configuration`: all byte
strings hold real (nonzero, 8-bit) C-string bytes, the entropy blob holds
8-bit bytes, numeric fields fit their declared protobuf widths, and the
payload length fits the 32-bit header word. -/

/-- A value representable by the `int32` wire type. -/
abbrev int32WF (v : Int) : Prop := -(2 ^ 31) ≤ v ∧ v < 2 ^ 31

/-- A value representable by the `int64` wire type. -/
abbrev int64WF (v : Int) : Prop := -(2 ^ 63) ≤ v ∧ v < 2 ^ 63

/-- A C string: nonzero 8-bit bytes. -/
abbrev strWF (s : Str) : Prop := ∀ b ∈ s, 0 < b ∧ b < 256

/-- A binary blob: 8-bit bytes. -/
abbrev bytesWF (s : Str) : Prop := ∀ b ∈ s, b < 256

/-- Well-formed `Limit`. -/
abbrev limitWF (l : Limit) : Prop := int32WF l.resource ∧ int64WF l.soft ∧ int64WF l.hard

/-- Well-formed `EnvVar`. -/
abbrev envVarWF (e : EnvVar) : Prop := strWF e.key ∧ strWF e.value

/-- Well-formed `Mount`. -/
abbrev mountWF (m : Mount) : Prop :=
  strWF m.target ∧ strWF m.source ∧ strWF m.fstype ∧ strWF m.data

/-- Well-formed `Run`. -/
abbrev runWF (r : Run) : Prop :=
  strWF r.cmd ∧ (∀ a ∈ r.arg, strWF a) ∧ strWF r.cwd ∧ strWF r.input ∧
    strWF r.output ∧ strWF r.error ∧ (∀ e ∈ r.env, envVarWF e) ∧
    int32WF r.uid ∧ int32WF r.gid ∧ (∀ l ∈ r.limit, limitWF l)

/-- Well-formed `Config`. -/
abbrev configWF (c : Config) : Prop :=
  (∀ t ∈ c.tty_raw, strWF t) ∧ (∀ m ∈ c.mount, mountWF m) ∧
    (∀ r ∈ c.run, runWF r) ∧ bytesWF c.random ∧
    (packConfig c).length < 2 ^ 32

/-! ## Integer wire round-trips -/

/-- `int32` fields survive the 64-bit varint wire form. -/
theorem toInt32_intWire (v : Int) (h : int32WF v) : toInt32 (intWire v) = v := by
  obtain ⟨h1, h2⟩ := h
  simp only [toInt32, intWire]
  split_ifs with hm <;> omega

/-- `int64` fields survive the 64-bit varint wire form. -/
theorem toInt64_intWire (v : Int) (h : int64WF v) : toInt64 (intWire v) = v := by
  obtain ⟨h1, h2⟩ := h
  simp only [toInt64, intWire]
  split_ifs with hm <;> omega

/-- An optional-field `if` collapses over the default empty string. -/
theorem if_nil_eq (s : Str) : (if s = [] then ([] : Str) else s) = s := by
  by_cases h : s = [] <;> simp [h]

/-- An optional-field `if` collapses over the default zero. -/
theorem if_zero_eq (v : Int) : (if v = 0 then (0 : Int) else v) = v := by
  by_cases h : v = 0 <;> simp [h]

/-! ## Message fold evaluation -/

theorem foldRecs_append (upd : α → Rec → Option α) (a : α) (X Y : List Rec) :
    foldRecs upd a (X ++ Y) = (foldRecs upd a X).bind fun a' => foldRecs upd a' Y := by
  induction X generalizing a with
  | nil => simp [foldRecs]
  | cons x xs ih =>
    simp only [List.cons_append, foldRecs]
    cases upd a x <;> simp [ih]

/-- Decoding the records of a serialized `EnvVar` restores it. -/
theorem envVarOfRecs_envVarRecs (e : EnvVar) : envVarOfRecs (envVarRecs e) = e := by
  cases e with
  | mk k v =>
    by_cases hk : k = [] <;> by_cases hv : v = [] <;>
      simp [envVarOfRecs, envVarRecs, strOptRecs, updEnvVar, defEnvVar, hk, hv]

/-- Decoding the records of a serialized `Limit` restores it. -/
theorem limitOfRecs_limitRecs (l : Limit) (h : limitWF l) :
    limitOfRecs (limitRecs l) = l := by
  obtain ⟨h1, h2, h3⟩ := h
  cases l with
  | mk res soft hard =>
    by_cases hr : res = 0 <;> by_cases hs : soft = 0 <;> by_cases hh : hard = 0 <;>
      simp_all [limitOfRecs, limitRecs, intRecs, updLimit, defLimit,
        toInt32_intWire res h1, toInt64_intWire soft h2, toInt64_intWire hard h3]

/-- Decoding the records of a serialized `Mount` restores it. -/
theorem mountOfRecs_mountRecs (m : Mount) : mountOfRecs (mountRecs m) = m := by
  cases m with
  | mk t s fs d ro ns =>
    by_cases h1 : t = [] <;> by_cases h2 : s = [] <;> by_cases h3 : fs = [] <;>
      by_cases h4 : d = [] <;> cases ro <;> cases ns <;>
        simp [mountOfRecs, mountRecs, strOptRecs, boolRecs, updMount, defMount,
          h1, h2, h3, h4]

/-! ### `Run` fold steps, one per field -/

theorem runFold1 (a : Run) (b : Bool) :
    foldRecs updRun a (boolRecs 1 b) = some { a with daemon := a.daemon || b } := by
  cases b <;> simp [boolRecs, foldRecs, updRun]

theorem runFold2 (a : Run) (s : Str) :
    foldRecs updRun a (strOptRecs 2 s) =
      some { a with cmd := if s = [] then a.cmd else s } := by
  by_cases h : s = [] <;> simp [strOptRecs, h, foldRecs, updRun]

theorem runFold3 (a : Run) (xs : List Str) :
    foldRecs updRun a (xs.map fun s => ((3 : Nat), WireVal.ldelim s)) =
      some { a with arg := a.arg ++ xs } := by
  induction xs generalizing a with
  | nil => simp [foldRecs]
  | cons x xs ih => simp [foldRecs, updRun, ih]

theorem runFold4 (a : Run) (s : Str) :
    foldRecs updRun a (strOptRecs 4 s) =
      some { a with cwd := if s = [] then a.cwd else s } := by
  by_cases h : s = [] <;> simp [strOptRecs, h, foldRecs, updRun]

theorem runFold5 (a : Run) (s : Str) :
    foldRecs updRun a (strOptRecs 5 s) =
      some { a with input := if s = [] then a.input else s } := by
  by_cases h : s = [] <;> simp [strOptRecs, h, foldRecs, updRun]

theorem runFold6 (a : Run) (s : Str) :
    foldRecs updRun a (strOptRecs 6 s) =
      some { a with output := if s = [] then a.output else s } := by
  by_cases h : s = [] <;> simp [strOptRecs, h, foldRecs, updRun]

theorem runFold7 (a : Run) (s : Str) :
    foldRecs updRun a (strOptRecs 7 s) =
      some { a with error := if s = [] then a.error else s } := by
  by_cases h : s = [] <;> simp [strOptRecs, h, foldRecs, updRun]

theorem runFold8 (a : Run) (b : Bool) :
    foldRecs updRun a (boolRecs 8 b) = some { a with cat_output := a.cat_output || b } := by
  cases b <;> simp [boolRecs, foldRecs, updRun]

theorem runFold9 (a : Run) (es : List EnvVar) :
    foldRecs updRun a (es.map fun e => ((9 : Nat), WireVal.ldelim (packEnvVar e))) =
      some { a with env := a.env ++ es } := by
  induction es generalizing a with
  | nil => simp [foldRecs]
  | cons e es ih =>
    simp [foldRecs, updRun, parseRecords_of_chunk (chunk_packEnvVar e),
      envVarOfRecs_envVarRecs, ih]

theorem runFold10 (a : Run) (b : Bool) :
    foldRecs updRun a (boolRecs 10 b) = some { a with user := a.user || b } := by
  cases b <;> simp [boolRecs, foldRecs, updRun]

theorem runFold11 (a : Run) (v : Int) (h : int32WF v) :
    foldRecs updRun a (intRecs 11 v) =
      some { a with uid := if v = 0 then a.uid else v } := by
  by_cases hv : v = 0 <;>
    simp [intRecs, hv, foldRecs, updRun, toInt32_intWire v h]

theorem runFold12 (a : Run) (v : Int) (h : int32WF v) :
    foldRecs updRun a (intRecs 12 v) =
      some { a with gid := if v = 0 then a.gid else v } := by
  by_cases hv : v = 0 <;>
    simp [intRecs, hv, foldRecs, updRun, toInt32_intWire v h]

theorem runFold13 (a : Run) (ls : List Limit) (h : ∀ l ∈ ls, limitWF l) :
    foldRecs updRun a (ls.map fun l => ((13 : Nat), WireVal.ldelim (packLimit l))) =
      some { a with limit := a.limit ++ ls } := by
  induction ls generalizing a with
  | nil => simp [foldRecs]
  | cons l ls ih =>
    have hl : limitWF l := h l (by simp)
    have hls : ∀ x ∈ ls, limitWF x := fun x hx => h x (by simp [hx])
    simp [foldRecs, updRun, parseRecords_of_chunk (chunk_packLimit l),
      limitOfRecs_limitRecs l hl, fun a => ih a hls]

/-- Decoding the records of a serialized `Run` restores it. -/
theorem foldRecs_runRecs (r : Run) (h : runWF r) :
    foldRecs updRun defRun (runRecs r) = some r := by
  obtain ⟨hcmd, harg, hcwd, hin, hout, herr, henv, huid, hgid, hlim⟩ := h
  cases r with
  | mk daemon cmd arg cwd input output error cat_output env user uid gid limit =>
    simp only [runRecs, foldRecs_append, runFold1, runFold2, runFold3, runFold4,
      runFold5, runFold6, runFold7, runFold8, runFold9, runFold10,
      runFold11 _ _ huid, runFold12 _ _ hgid, runFold13 _ _ hlim,
      Option.some_bind, Option.bind_some]
    simp [defRun, if_nil_eq, if_zero_eq]

/-! ### `Config` fold steps -/

theorem cfgFold1 (a : Config) (ts : List Str) :
    foldRecs updConfig a (ts.map fun t => ((1 : Nat), WireVal.ldelim t)) =
      some { a with tty_raw := a.tty_raw ++ ts } := by
  induction ts generalizing a with
  | nil => simp [foldRecs]
  | cons t ts ih => simp [foldRecs, updConfig, ih]

theorem cfgFold2 (a : Config) (ms : List Mount) :
    foldRecs updConfig a (ms.map fun m => ((2 : Nat), WireVal.ldelim (packMount m))) =
      some { a with mount := a.mount ++ ms } := by
  induction ms generalizing a with
  | nil => simp [foldRecs]
  | cons m ms ih =>
    simp [foldRecs, updConfig, parseRecords_of_chunk (chunk_packMount m),
      mountOfRecs_mountRecs, ih]

theorem cfgFold3 (a : Config) (rs : List Run) (h : ∀ r ∈ rs, runWF r) :
    foldRecs updConfig a (rs.map fun r => ((3 : Nat), WireVal.ldelim (packRun r))) =
      some { a with run := a.run ++ rs } := by
  induction rs generalizing a with
  | nil => simp [foldRecs]
  | cons r rs ih =>
    have hr : runWF r := h r (by simp)
    have hrs : ∀ x ∈ rs, runWF x := fun x hx => h x (by simp [hx])
    simp [foldRecs, updConfig, parseRecords_of_chunk (chunk_packRun r),
      foldRecs_runRecs r hr, fun a => ih a hrs]

theorem cfgFold4 (a : Config) (s : Str) :
    foldRecs updConfig a (strOptRecs 4 s) =
      some { a with random := if s = [] then a.random else s } := by
  by_cases h : s = [] <;> simp [strOptRecs, h, foldRecs, updConfig]

/-- Decoding the records of a serialized `Config` restores it. -/
theorem foldRecs_configRecs (c : Config) (h : ∀ r ∈ c.run, runWF r) :
    foldRecs updConfig defConfig (configRecs c) = some c := by
  cases c with
  | mk tty_raw mount run random =>
    simp only [configRecs, foldRecs_append, cfgFold1, cfgFold2, cfgFold3 _ _ h,
      cfgFold4, Option.some_bind]
    simp [defConfig, if_nil_eq]

/-- Round-trip of the payload codec: `config__unpack` of the serialized
payload restores the configuration. -/
theorem unpackConfig_packConfig (c : Config) (h : ∀ r ∈ c.run, runWF r) :
    unpackConfig (packConfig c) = some c := by
  simp [unpackConfig, parseRecords_packConfig, foldRecs_configRecs c h]

/-! ## Block image: header, padding (host `umlbox` script), guest decode (`init.c`)

The host writes `struct.pack('=LL', 0xdeadbeef, len(payload)) + payload`
and zero-pads to a 512-byte multiple (`umlbox` script, `main`).  Words are
native-endian 32-bit; both ends of this system are the same little-endian
machine, so the model fixes little-endian. -/

/-- Little-endian 4-byte encoding of a 32-bit word. -/
def le32 (n : Nat) : List Nat :=
  [n % 256, n / 256 % 256, n / 2 ^ 16 % 256, n / 2 ^ 24 % 256]

/-- Read a 32-bit word from the first four bytes of a buffer. -/
def word32 (bs : List Nat) : Nat :=
  match bs with
  | b0 :: b1 :: b2 :: b3 :: _ => b0 + 256 * (b1 + 256 * (b2 + 256 * b3))
  | _ => 0

/-- The fixed header magic `0xdeadbeef`. -/
def magicWord : Nat := 0xdeadbeef

/-- Zero-padding needed to reach the next 512-byte boundary. -/
def padLen (total : Nat) : Nat :=
  if total % 512 = 0 then 0 else 512 - total % 512

/-- `encode`: the serialized block image for a configuration (host side):
8-byte header (magic word, payload length), protobuf payload, zero padding
to a 512-byte multiple. -/
def encodeImage (c : Config) : List Nat :=
  let payload := packConfig c
  le32 magicWord ++ le32 payload.length ++ payload ++
    List.replicate (padLen (8 + payload.length)) 0

/-- Guest-side decode errors.  `badMagic` is `init.c`'s
`"bad /ubda header"` path, `badPayload` its `"bad config"` path.
`truncated` stands for the reads that cannot complete: note that due to the
`got -= chunk` slip in `readall` a short read is not detected by the C code,
which would instead proceed over uninitialized buffer memory; no valid
block image (always at least 512 bytes) reaches those branches, and no
claim depends on their exact outcome. -/
inductive DecodeErr where
  | badMagic
  | badPayload
  | truncated
  deriving DecidableEq, Repr

/-- `decode`: the guest supervisor's consumption of the block image
(`init.c` `main`, configuration-parsing block): read two 32-bit header
words, reject if the first is not `0xdeadbeef`, then read the declared
payload length and `config__unpack` it.  The magic comparison uses only
the first four bytes, before the payload length is ever examined. -/
def decodeImage (bs : List Nat) : Except DecodeErr Config :=
  if bs.length < 4 then .error .truncated
  else if word32 (bs.take 4) ≠ magicWord then .error .badMagic
  else if bs.length < 8 then .error .truncated
  else if (bs.drop 8).length < word32 ((bs.drop 4).take 4) then .error .truncated
  else
    match unpackConfig ((bs.drop 8).take (word32 ((bs.drop 4).take 4))) with
    | some c => .ok c
    | none => .error .badPayload

instance : DecidableEq (Except DecodeErr Config) := fun a b =>
  match a, b with
  | .error x, .error y =>
    if h : x = y then isTrue (by rw [h]) else isFalse (by simp [h])
  | .ok x, .ok y =>
    if h : x = y then isTrue (by rw [h]) else isFalse (by simp [h])
  | .error _, .ok _ => isFalse (by simp)
  | .ok _, .error _ => isFalse (by simp)

/-- Reading back a little-endian 32-bit word. -/
theorem word32_le32 (n : Nat) (h : n < 2 ^ 32) : word32 (le32 n) = n := by
  simp only [le32, word32]
  omega

/-- The first four bytes of an encoded image are the magic word. -/
theorem encodeImage_take4 (c : Config) : (encodeImage c).take 4 = le32 magicWord := by
  have : encodeImage c = le32 magicWord ++ (le32 (packConfig c).length ++
      (packConfig c ++ List.replicate (padLen (8 + (packConfig c).length)) 0)) := by
    simp [encodeImage, List.append_assoc]
  rw [this]
  exact List.take_left' rfl

/-- Decoding an encoded image restores the configuration. -/
theorem decodeImage_encodeImage (c : Config) (h : configWF c) :
    decodeImage (encodeImage c) = .ok c := by
  obtain ⟨-, -, hrun, -, hlen32⟩ := h
  have hA : (le32 magicWord).length = 4 := rfl
  have hB : (le32 (packConfig c).length).length = 4 := rfl
  have himg : encodeImage c = le32 magicWord ++ (le32 (packConfig c).length ++
      (packConfig c ++ List.replicate (padLen (8 + (packConfig c).length)) 0)) := by
    simp [encodeImage, List.append_assoc]
  have e1 : (encodeImage c).take 4 = le32 magicWord := encodeImage_take4 c
  have e2 : (encodeImage c).drop 4 = le32 (packConfig c).length ++
      (packConfig c ++ List.replicate (padLen (8 + (packConfig c).length)) 0) := by
    rw [himg]; exact List.drop_left' hA
  have e3 : (encodeImage c).drop 8 = packConfig c ++
      List.replicate (padLen (8 + (packConfig c).length)) 0 := by
    rw [himg, ← List.append_assoc]
    exact List.drop_left' (by simp [le32])
  have e4 : ((encodeImage c).drop 4).take 4 = le32 (packConfig c).length := by
    rw [e2]; exact List.take_left' hB
  have hlenimg : (encodeImage c).length =
      8 + ((packConfig c).length + padLen (8 + (packConfig c).length)) := by
    rw [himg]; simp [le32]; omega
  simp only [decodeImage, e1, e3, e4, word32_le32 magicWord (by norm_num [magicWord]),
    word32_le32 (packConfig c).length hlen32]
  rw [if_neg (by omega : ¬ (encodeImage c).length < 4),
    if_neg (by simp : ¬ magicWord ≠ magicWord),
    if_neg (by omega : ¬ (encodeImage c).length < 8),
    if_neg (by simp), List.take_left' rfl, unpackConfig_packConfig c hrun]

/-! ## Host orchestrator: mount ordering (`umlbox` script)

The host gathers mounts in a dict keyed by target path and emits them with
`sorted(mounts.keys(), key=lambda m: (len(m), m))`.  Python's tuple order
compares length first, then the string lexically.  `sorted` is modelled as
insertion sort over the same key order; on the duplicate-free key lists the
host produces any stable sort yields this order. -/

/-- Lexicographic (byte-wise) `a ≤ b`, Python string order. -/
def lexLe : Str → Str → Bool
  | [], _ => true
  | _ :: _, [] => false
  | a :: as, b :: bs => if a < b then true else if a = b then lexLe as bs else false

/-- The sort key order `(len(m), m)`: length first, ties lexically. -/
def mountKeyLe (a b : Str) : Bool :=
  if a.length < b.length then true
  else if a.length = b.length then lexLe a b
  else false

/-- Insert one target into an ordered target list. -/
def insertMount (x : Str) : List Str → List Str
  | [] => [x]
  | y :: ys => if mountKeyLe x y then x :: y :: ys else y :: insertMount x ys

/-- The order in which the host emits mount targets into the
configuration. -/
def sortMounts (ts : List Str) : List Str := ts.foldr insertMount []

theorem lexLe_total (a : Str) : ∀ b, lexLe a b = true ∨ lexLe b a = true := by
  induction a with
  | nil => intro b; left; rfl
  | cons x xs ih =>
    intro b
    cases b with
    | nil => right; rfl
    | cons y ys =>
      by_cases hxy : x < y
      · left; simp [lexLe, hxy]
      · by_cases heq : x = y
        · subst heq
          rcases ih ys with h | h
          · left; simp [lexLe, h]
          · right; simp [lexLe, h]
        · right
          have hyx : y < x := by omega
          simp [lexLe, hyx]

theorem lexLe_trans : ∀ a b c : Str, lexLe a b = true → lexLe b c = true →
    lexLe a c = true := by
  intro a
  induction a with
  | nil => intro b c _ _; rfl
  | cons x xs ih =>
    intro b c hab hbc
    cases b with
    | nil => simp [lexLe] at hab
    | cons y ys =>
      cases c with
      | nil => simp [lexLe] at hbc
      | cons z zs =>
        simp only [lexLe] at hab hbc ⊢
        by_cases hyz : y < z
        · by_cases hxy : x < y
          · have : x < z := by omega
            simp [this]
          · by_cases hxy2 : x = y
            · have : x < z := by omega
              simp [this]
            · simp [hxy, hxy2] at hab
        · by_cases hyz2 : y = z
          · subst hyz2
            by_cases hxy : x < y
            · simp [hxy]
            · by_cases hxy2 : x = y
              · subst hxy2
                rw [if_neg (lt_irrefl x), if_pos rfl] at hab hbc ⊢
                exact ih ys zs hab hbc
              · simp [hxy, hxy2] at hab
          · simp [hyz, hyz2] at hbc

theorem mountKeyLe_total (a b : Str) : mountKeyLe a b = true ∨ mountKeyLe b a = true := by
  unfold mountKeyLe
  rcases Nat.lt_trichotomy a.length b.length with h | h | h
  · left; rw [if_pos h]
  · rcases lexLe_total a b with hl | hl
    · left; rw [if_neg (by omega), if_pos h, hl]
    · right; rw [if_neg (by omega), if_pos h.symm, hl]
  · right; rw [if_pos h]

theorem mountKeyLe_trans (a b c : Str) (hab : mountKeyLe a b = true)
    (hbc : mountKeyLe b c = true) : mountKeyLe a c = true := by
  unfold mountKeyLe at hab hbc ⊢
  split_ifs at hab hbc ⊢ <;>
    first
      | rfl
      | exact lexLe_trans a b c hab hbc
      | omega

theorem mem_insertMount (x z : Str) : ∀ l, z ∈ insertMount x l ↔ z = x ∨ z ∈ l := by
  intro l
  induction l with
  | nil => simp [insertMount]
  | cons y ys ih =>
    cases h : mountKeyLe x y with
    | true => simp [insertMount, h]
    | false =>
      simp only [insertMount, h, Bool.false_eq_true, if_false, List.mem_cons, ih]
      tauto

theorem pairwise_insertMount (x : Str) :
    ∀ l, l.Pairwise (fun a b => mountKeyLe a b = true) →
      (insertMount x l).Pairwise (fun a b => mountKeyLe a b = true) := by
  intro l
  induction l with
  | nil => intro _; simp [insertMount]
  | cons y ys ih =>
    intro hp
    rw [List.pairwise_cons] at hp
    cases h : mountKeyLe x y with
    | true =>
      simp only [insertMount, h, if_true]
      rw [List.pairwise_cons]
      constructor
      · intro z hz
        rcases List.mem_cons.mp hz with rfl | hz'
        · exact h
        · exact mountKeyLe_trans x y z h (hp.1 z hz')
      · rw [List.pairwise_cons]; exact hp
    | false =>
      simp only [insertMount, h, Bool.false_eq_true, if_false]
      rw [List.pairwise_cons]
      refine ⟨?_, ih hp.2⟩
      intro z hz
      rcases (mem_insertMount x z ys).mp hz with h0 | hz'
      · subst h0
        rcases mountKeyLe_total z y with h' | h'
        · rw [h'] at h; exact absurd h (by simp)
        · exact h'
      · exact hp.1 z hz'

/-- The emitted mount order is sorted by `(length, lexical)`. -/
theorem sortMounts_pairwise (ts : List Str) :
    (sortMounts ts).Pairwise (fun a b => mountKeyLe a b = true) := by
  induction ts with
  | nil => simp [sortMounts]
  | cons t ts ih => exact pairwise_insertMount t _ ih

/-- The emitted mounts are exactly the requested ones. -/
theorem sortMounts_perm (ts : List Str) : (sortMounts ts).Perm ts := by
  induction ts with
  | nil => simp [sortMounts]
  | cons t ts ih =>
    have h1 : insertMount t (sortMounts ts) |>.Perm (t :: sortMounts ts) := by
      clear ih
      induction sortMounts ts with
      | nil => simp [insertMount]
      | cons y ys ih2 =>
        by_cases h : mountKeyLe t y = true
        · simp [insertMount, h]
        · simp only [insertMount, h, if_false]
          calc y :: insertMount t ys
              |>.Perm (y :: t :: ys) := List.Perm.cons y ih2
            _ |>.Perm (t :: y :: ys) := List.Perm.swap t y ys
    exact h1.trans (List.Perm.cons t ih)

/-! ## Host orchestrator: timeout escalation (`umlbox` script) -/

/-- One host supervision action over the guest process. -/
inductive HostAct where
  | waitUpTo (secs : Nat)
  | waitForever
  | writeSoft
  | writeHard
  | killGroup
  deriving DecidableEq, Repr

/-- Host supervision of the guest process (`umlbox` script, end of `main`):
wait up to the timeout; if not exited write the soft token `b'N\n'` and
wait 5s; if still not exited write the hard token `b'Y\n'` and wait 5s; if
still not exited `killpg(SIGKILL)` and wait unconditionally.  `exited k`
abstracts `uml.returncode is not None` at the k-th check. -/
def hostSupervise (timeout : Nat) (exited : Nat → Bool) : List HostAct :=
  if timeout = 0 then [.waitForever]
  else
    [HostAct.waitUpTo timeout] ++
      (if exited 0 then [] else [.writeSoft, .waitUpTo 5]) ++
      (if exited 1 then [] else [.writeHard, .waitUpTo 5]) ++
      (if exited 2 then [] else [.killGroup, .waitForever])

/-! ## Guest supervisor: the foreground wait loop (`init.c` `handle_run`) -/

/-- An observable event while the supervisor waits on a foreground run: a
child or cat-auxiliary exit reaped by `waitpid`, or a control byte readable
on fd 0 (the timeout channel).  `'N'` = 78 is the soft token, `'Y'` = 89
the hard token. -/
inductive WaitEvent where
  | childExit
  | catExit
  | ctrl (b : Nat)
  deriving DecidableEq, Repr

/-- A signal the wait loop can send to the main child. -/
inductive WaitAct where
  | sigTERM
  | sigKILL
  deriving DecidableEq, Repr

/-- The foreground wait loop of `handle_run` (`init.c` lines 300-333),
processing its pending events in order.  State: main child running, cat
running, `timed_out` so far.  A child exit clears its flag and ends the
loop when both are down; a control byte sets `timed_out`, ends the loop
immediately if it is the hard token `'Y'`, and otherwise (soft token)
sends SIGTERM to the still-running main child.  Returns the signals sent
and the `timed_out` result; an exhausted event list models a loop still
blocked in `waitpid`/`ppoll`, returning what was observed so far. -/
def runWaitGo (child cat timedOut : Bool) : List WaitEvent → List WaitAct × Bool
  | [] => ([], timedOut)
  | .childExit :: es =>
    if cat then runWaitGo false cat timedOut es else ([], timedOut)
  | .catExit :: es =>
    if child then runWaitGo child false timedOut es else ([], timedOut)
  | .ctrl b :: es =>
    if b = 89 then ([], true)
    else if child then
      ((runWaitGo child cat true es).1.cons .sigTERM, (runWaitGo child cat true es).2)
    else runWaitGo child cat true es

/-- The wait loop as entered by `handle_run`: child running, cat running
iff `cat_output` was set, not yet timed out. -/
def runWait (catOutput : Bool) (es : List WaitEvent) : List WaitAct × Bool :=
  runWaitGo true catOutput false es

/-- Whether `handle_run` reports this run as timed out: daemons return
immediately (`false`); foreground runs return the wait loop's flag. -/
def runTimedOut (r : Run) (es : List WaitEvent) : Bool :=
  if r.daemon then false else (runWait r.cat_output es).2

/-! ## Guest supervisor: the action trace (`init.c` `main`) -/

/-- Confinement root path `"/host"`. -/
def hostRoot : Str := [47, 104, 111, 115, 116]

/-- The effective mount point of `handle_mount` (`init.c` lines 178-180):
`snprintf(target, …, "/host%s%s", *mnt->target == '/' ? "" : "/",
mnt->target)`. -/
def mountTargetPath (t : Str) : Str :=
  hostRoot ++ (if t.head? = some 47 then [] else [47]) ++ t

/-- One guest supervisor action. -/
inductive GuestAct where
  | seedRandom
  | ttyRaw (dev : Str)
  | mountAt (target : Str)
  | execRun (i : Nat)
  | syncDisks
  | powerOff
  | fatal
  deriving DecidableEq, Repr

/-- The run loop of `main` (`init.c` lines 140-144): execute each `Run` in
order, stopping after the first one whose `handle_run` reports a timeout;
then `sync()` and power off.  `evs i` supplies the wait events observed
during run `i`. -/
def runSeq (evs : Nat → List WaitEvent) : Nat → List Run → List GuestAct
  | _, [] => [.syncDisks, .powerOff]
  | i, r :: rs =>
    GuestAct.execRun i ::
      (if runTimedOut r (evs i) then [.syncDisks, .powerOff] else runSeq evs (i + 1) rs)

/-- The guest supervisor's action trace after the bootstrap steps
(`init.c` `main`): decode the image from the block device; on failure,
`fail` prints and powers off; on success seed entropy if supplied, raw-mode
each tty, apply each mount in configuration order, then the run loop. -/
def guestTrace (image : List Nat) (evs : Nat → List WaitEvent) : List GuestAct :=
  match decodeImage image with
  | .error _ => [.fatal, .powerOff]
  | .ok cfg =>
    (if cfg.random.length > 0 then [.seedRandom] else []) ++
      (cfg.tty_raw.map GuestAct.ttyRaw) ++
      (cfg.mount.map fun m => GuestAct.mountAt (mountTargetPath m.target)) ++
      runSeq evs 0 cfg.run

/-! ## Run engine: confinement (`hostify`) -/

/-- One confinement step of a spawned command. -/
inductive HostifyAct where
  | chdir (p : Str)
  | chrootHere
  | setgid (g : Int)
  | setuid (u : Int)
  deriving DecidableEq, Repr

/-- `hostify` (`init.c` lines 401-410): enter `/host`, `chroot(".")`,
enter the working directory if one is set, then drop identity —
group first, then user. -/
def hostifyActs (cwd : Str) (user : Bool) (uid gid : Int) : List HostifyAct :=
  [HostifyAct.chdir hostRoot, .chrootHere] ++
    (if cwd = [] then [] else [.chdir cwd]) ++
    (if user then [.setgid gid, .setuid uid] else [])

/-! ## Run engine: resource limits (`init.c` `set_limits`) -/

/-- Linux rlimit resource constants (x86-64/UML ABI) for each schema
`Limit.Resource` kind 1..9, per the `resource_map` designated-initializer
table in `set_limits`: AS, CORE, CPU, DATA, FSIZE, MEMLOCK, NOFILE, NPROC,
STACK. -/
def rlimitConst (r : Int) : Nat :=
  if r = 1 then 9
  else if r = 2 then 4
  else if r = 3 then 0
  else if r = 4 then 2
  else if r = 5 then 1
  else if r = 6 then 8
  else if r = 7 then 7
  else if r = 8 then 6
  else if r = 9 then 3
  else 0

/-- A soft/hard rlimit cell: finite value or `RLIM_INFINITY`. -/
inductive RlimVal where
  | fin (n : Int)
  | unlimited
  deriving DecidableEq, Repr

/-- `l->soft >= 0 ? l->soft : RLIM_INFINITY`. -/
def rlimOf (v : Int) : RlimVal := if 0 ≤ v then .fin v else .unlimited

/-- The validity test of `set_limits`: `l->resource < 0`, `>= 10` (the
`resource_map` size) or an uninitialized slot (index 0, the `UNKNOWN`
kind) is a fatal error. -/
def resourceValid (r : Int) : Bool := decide (1 ≤ r) && decide (r ≤ 9)

/-- `set_limits` (`init.c` lines 412-438): walk the `Limit` list in order;
an invalid resource kind is fatal (`none`; the C code `fail`s, so any
entries after it are not applied either); otherwise record the
`setrlimit` call for the mapped resource with negative values mapped to
`RLIM_INFINITY`. -/
def set_limits : List Limit → Option (List (Nat × RlimVal × RlimVal))
  | [] => some []
  | l :: ls =>
    if resourceValid l.resource then
      (set_limits ls).map fun rest =>
        (rlimitConst l.resource, rlimOf l.soft, rlimOf l.hard) :: rest
    else none

/-! ## Run engine: executable resolution (`init.c` `handle_run` child) -/

/-- What a given `execv` target would do: succeed (replacing the process
image) or fail with an errno. -/
inductive ExecRes where
  | ok
  | err (errno : Nat)
  deriving DecidableEq, Repr

/-- `ENOEXEC`: not a valid executable format. -/
def ENOEXEC : Nat := 8

/-- `EACCES`. -/
def EACCES : Nat := 13

/-- `DEFAULT_SHELL "/bin/bash"`, the default command interpreter. -/
def defaultShell : Str := [47, 98, 105, 110, 47, 98, 97, 115, 104]

/-- `DEFAULT_PATH "/usr/local/bin:/bin:/usr/bin"`. -/
def defaultPath : Str :=
  [47, 117, 115, 114, 47, 108, 111, 99, 97, 108, 47, 98, 105, 110, 58,
   47, 98, 105, 110, 58, 47, 117, 115, 114, 47, 98, 105, 110]

/-- One exec attempt: the program path handed to `execv` and the argument
vector. -/
structure Attempt where
  prog : Str
  argv : List Str
  deriving DecidableEq, Repr

/-- How the child's resolution loop ends: the process image is replaced, or
the child prints `strerror(exec_errno)` and calls `exit(1)`. -/
inductive ChildOutcome where
  | execed (prog : Str) (argv : List Str)
  | exitFail (errno : Nat)
  deriving DecidableEq, Repr

/-- Split a PATH string at `':'` (58), as successive `strchr` calls see
it. -/
def splitColon : Str → List Str
  | [] => [[]]
  | c :: cs =>
    if c = 58 then [] :: splitColon cs
    else
      match splitColon cs with
      | [] => [[c]]
      | p :: ps => (c :: p) :: ps

/-- The PATH components the do-while loop of the child actually visits:
one per iteration; after consuming a component the loop continues only
`while (path && *path)`, so nothing follows a trailing `':'`. -/
def pathComponents (p : Str) : List Str :=
  let cs := splitColon p
  match cs.getLast? with
  | some [] => if 2 ≤ cs.length then cs.dropLast else cs
  | _ => cs

/-- Whether the command name contains a path separator
(`strchr(cmd, '/')`). -/
def hasSlash (s : Str) : Bool := s.contains 47

/-- The exec loop of the spawned child (`init.c` lines 265-287), over the
candidate program paths built from PATH (or the bare command when it
contains a `'/'`).  For each candidate: `execv` it with `argv+1` (the
original name and arguments); on `ENOEXEC` fall back once to
`DEFAULT_SHELL` with the candidate path spliced in as `argv[1]` and stop;
on any other error remember it (`exec_errno`, keeping a first `EACCES`)
and try the next candidate; when the candidates are exhausted print the
error and `exit(1)`. -/
def execLoop (o : Str → ExecRes) (runCmd : Str) (args : List Str) (e : Nat) :
    List Str → List Attempt × ChildOutcome
  | [] => ([], .exitFail e)
  | cand :: rest =>
    match o cand with
    | .ok => ([⟨cand, runCmd :: args⟩], .execed cand (runCmd :: args))
    | .err en =>
      if en = ENOEXEC then
        match o defaultShell with
        | .ok =>
          ([⟨cand, runCmd :: args⟩, ⟨defaultShell, defaultShell :: cand :: args⟩],
           .execed defaultShell (defaultShell :: cand :: args))
        | .err en2 =>
          ([⟨cand, runCmd :: args⟩, ⟨defaultShell, defaultShell :: cand :: args⟩],
           .exitFail (if e = EACCES then e else en2))
      else
        let e' := if e = EACCES then e else en
        ((execLoop o runCmd args e' rest).1.cons ⟨cand, runCmd :: args⟩,
         (execLoop o runCmd args e' rest).2)

/-- The candidate list for a command name under a PATH value. -/
def pathCandidates (runCmd pathVar : Str) : List Str :=
  (pathComponents pathVar).map fun d => d ++ [47] ++ runCmd

/-- Executable resolution (`init.c` lines 258-287): a name containing
`'/'` is executed directly (one candidate, no PATH walk); otherwise each
PATH entry is tried in order.  `pathVar` is the PATH value in effect after
the Run's environment overrides (`DEFAULT_PATH` if unset). -/
def resolveExec (o : Str → ExecRes) (runCmd : Str) (args : List Str) (pathVar : Str) :
    List Attempt × ChildOutcome :=
  if hasSlash runCmd then execLoop o runCmd args 0 [runCmd]
  else execLoop o runCmd args 0 (pathCandidates runCmd pathVar)

/-- The spawned child after redirection/confinement (`init.c` `handle_run`
child branch): apply the resource limits, then resolve and exec.  A bad
resource kind is fatal before any exec attempt. -/
def childRun (o : Str → ExecRes) (r : Run) (pathVar : Str) :
    List Attempt × ChildOutcome :=
  match set_limits r.limit with
  | none => ([], .exitFail 22)
  | some _ => resolveExec o r.cmd r.arg pathVar

/-! ## Guest supervisor: `readall` (`init.c` lines 359-374) -/

/-- One `read(2)` result: `ok n` returned `n` bytes (`0` = end of file),
`err` returned `-1`. -/
inductive ReadRes where
  | ok (n : Nat)
  | err
  deriving DecidableEq, Repr

/-- How `readall` returns: `success ret filled` models returning `ret`
with `filled` bytes actually written into the buffer; `failure` models
returning `-1` (read error, or `EPIPE` on end-of-file). -/
inductive ReadallRes where
  | success (ret filled : Nat)
  | failure
  deriving DecidableEq, Repr

/-- `readall`, modelled faithfully including its `got -= chunk` counter
update with `got` a `size_t` (arithmetic modulo `2^64`).  `reads` supplies
the successive `read` results; `none` means the supplied reads were
exhausted while the loop still wanted more (the call would block on the
next `read`). -/
def readallGo : List ReadRes → Nat → Nat → Nat → Option ReadallRes
  | reads, got, count, filled =>
    if got < count then
      match reads with
      | [] => none
      | .err :: _ => some .failure
      | .ok 0 :: _ => some .failure
      | .ok (n + 1) :: rest =>
        readallGo rest ((got + 2 ^ 64 - (n + 1)) % 2 ^ 64) count (filled + (n + 1))
    else some (.success count filled)

/-- `readall fd buf count` at the model level. -/
def readall (reads : List ReadRes) (count : Nat) : Option ReadallRes :=
  readallGo reads 0 count 0

/-! ## Supporting lemmas for the claim theorems -/

/-- Four 8-bit bytes reading as the magic word are exactly its
little-endian encoding. -/
theorem word32_magic_bytes (b0 b1 b2 b3 : Nat) (h0 : b0 < 256) (h1 : b1 < 256)
    (h2 : b2 < 256) (h3 : b3 < 256)
    (hw : word32 [b0, b1, b2, b3] = magicWord) :
    [b0, b1, b2, b3] = le32 magicWord := by
  simp only [word32, magicWord] at hw
  have hb : b0 = 239 ∧ b1 = 190 ∧ b2 = 173 ∧ b3 = 222 := by omega
  obtain ⟨rfl, rfl, rfl, rfl⟩ := hb
  decide

/-- If a run reports a timeout, the run loop stops right after it. -/
theorem runSeq_stop (evs : Nat → List WaitEvent) :
    ∀ (rs : List Run) (start d : Nat) (r : Run),
      rs.get? d = some r → runTimedOut r (evs (start + d)) = true →
      GuestAct.execRun (start + d) ∈ runSeq evs start rs →
      (∀ j, start + d < j → GuestAct.execRun j ∉ runSeq evs start rs) ∧
      ∃ pre, runSeq evs start rs =
        pre ++ [GuestAct.execRun (start + d), GuestAct.syncDisks, GuestAct.powerOff] := by
  intro rs
  induction rs with
  | nil => intro start d r hget _ _; simp at hget
  | cons r0 rs ih =>
    intro start d r hget hto hex
    cases d with
    | zero =>
      have hr : r0 = r := by simpa using hget
      subst hr
      rw [Nat.add_zero] at hto ⊢
      constructor
      · intro j hj
        simp only [runSeq, hto, if_true, List.mem_cons]
        rintro (hc | hc)
        · cases hc; omega
        · simp at hc
      · exact ⟨[], by simp [runSeq, hto]⟩
    | succ d' =>
      have hget' : rs.get? d' = some r := by simpa using hget
      cases hT : runTimedOut r0 (evs start) with
      | true =>
        exfalso
        simp only [runSeq, hT, if_true, List.mem_cons] at hex
        rcases hex with hc | hc
        · exfalso; injection hc with hinj; omega
        · simp at hc
      | false =>
        have harith : start + 1 + d' = start + (d' + 1) := by omega
        simp only [runSeq, hT, Bool.false_eq_true, if_false, List.mem_cons] at hex
        rcases hex with hc | hmem
        · exact absurd (by injection hc) (by omega : ¬ start + (d' + 1) = start)
        · have hto' : runTimedOut r (evs (start + 1 + d')) = true := by
            rw [harith]; exact hto
          have hmem' : GuestAct.execRun (start + 1 + d') ∈ runSeq evs (start + 1) rs := by
            rw [harith]; exact hmem
          obtain ⟨hall, pre, heq⟩ := ih (start + 1) d' r hget' hto' hmem'
          constructor
          · intro j hj
            simp only [runSeq, hT, Bool.false_eq_true, if_false, List.mem_cons]
            rintro (hc | hc)
            · cases hc; omega
            · exact hall j (by omega) hc
          · refine ⟨GuestAct.execRun start :: pre, ?_⟩
            simp only [runSeq, hT, Bool.false_eq_true, if_false, List.cons_append]
            rw [← harith, heq]

/-- `"/bin:/usr/bin"`. -/
def pathBinUsrBin : Str :=
  [47, 98, 105, 110, 58, 47, 117, 115, 114, 47, 98, 105, 110]

/-- `"/bin/" ++ name`. -/
def binCand (name : Str) : Str := 47 :: 98 :: 105 :: 110 :: 47 :: name

/-- `"/usr/bin/" ++ name`. -/
def usrBinCand (name : Str) : Str :=
  47 :: 117 :: 115 :: 114 :: 47 :: 98 :: 105 :: 110 :: 47 :: name

/-- The candidate order under `PATH="/bin:/usr/bin"`. -/
theorem pathCandidates_binUsr (name : Str) :
    pathCandidates name pathBinUsrBin = [binCand name, usrBinCand name] := by
  have h : pathComponents pathBinUsrBin =
      [[47, 98, 105, 110], [47, 117, 115, 114, 47, 98, 105, 110]] := by decide
  simp [pathCandidates, h, binCand, usrBinCand]

/-- A bad resource kind anywhere in the list makes `set_limits` fail. -/
theorem set_limits_bad (ls : List Limit)
    (h : ∃ l ∈ ls, resourceValid l.resource = false) :
    set_limits ls = none := by
  induction ls with
  | nil => simp at h
  | cons l ls ih =>
    obtain ⟨l', hl', hbad⟩ := h
    rcases List.mem_cons.mp hl' with rfl | hmem
    · simp [set_limits, hbad]
    · cases hv : resourceValid l.resource with
      | false => simp [set_limits, hv]
      | true => simp [set_limits, hv, ih ⟨l', hmem, hbad⟩]

/-- With every kind valid, `set_limits` applies exactly the mapped
`setrlimit` calls. -/
theorem set_limits_good (ls : List Limit)
    (h : ∀ l ∈ ls, resourceValid l.resource = true) :
    set_limits ls = some (ls.map fun l =>
      (rlimitConst l.resource, rlimOf l.soft, rlimOf l.hard)) := by
  induction ls with
  | nil => simp [set_limits]
  | cons l ls ih =>
    have hl : resourceValid l.resource = true := h l (by simp)
    have hls : ∀ x ∈ ls, resourceValid x.resource = true := fun x hx => h x (by simp [hx])
    simp [set_limits, hl, ih hls]

/-! ## Claim theorems -/

/-- A small well-formed configuration used as the concrete witness input. -/
def sampleConfig : Config :=
  { tty_raw := [[47, 116, 116, 121, 49]],
    mount := [{ target := [47, 97], source := [110], fstype := [104],
                data := [47, 120], ro := true, nosuid := true }],
    run := [{ daemon := false, cmd := [115, 104], arg := [[45, 99]], cwd := [47],
              input := [], output := [47, 116], error := [], cat_output := true,
              env := [⟨[80], [49]⟩], user := true, uid := 5, gid := -3,
              limit := [⟨3, 10, -1⟩] }],
    random := [1, 2, 255] }

/-- **C1**: for every well-formed `Configuration` `c`, decoding the
serialized block image produced for `c` (fixed 8-byte header of magic word
and payload length, protobuf payload, zero padding to a 512-byte multiple)
yields a configuration equal to `c`: `decode(encode(c)) = c`. -/
theorem c1_config_round_trip (c : Config) (h : configWF c) :
    decodeImage (encodeImage c) = Except.ok c :=
  decodeImage_encodeImage c h

/-- **C1** witness: the round trip at a concrete well-formed
configuration. -/
theorem c1_config_round_trip_witness :
    configWF sampleConfig ∧
      decodeImage (encodeImage sampleConfig) = Except.ok sampleConfig :=
  ⟨by decide, c1_config_round_trip sampleConfig (by decide)⟩

/-- **C2**: every buffer of 8-bit bytes whose first four bytes differ from
the little-endian magic `0xdeadbeef` decodes to the bad-magic error, no
matter what follows, and the guest supervisor then executes no `Mount` and
no `Run` — its trace is just the fatal diagnostic and the power-off. -/
theorem c2_bad_magic_rejected (bs : List Nat) (hlen : 4 ≤ bs.length)
    (hbytes : ∀ b ∈ bs.take 4, b < 256)
    (hm : bs.take 4 ≠ le32 magicWord) :
    decodeImage bs = Except.error DecodeErr.badMagic ∧
      ∀ evs, guestTrace bs evs = [GuestAct.fatal, GuestAct.powerOff] ∧
             (∀ t, GuestAct.mountAt t ∉ guestTrace bs evs) ∧
             (∀ i, GuestAct.execRun i ∉ guestTrace bs evs) := by
  obtain ⟨b0, b1, b2, b3, rest, rfl⟩ :
      ∃ b0 b1 b2 b3 rest, bs = b0 :: b1 :: b2 :: b3 :: rest := by
    match bs, hlen with
    | b0 :: b1 :: b2 :: b3 :: rest, _ => exact ⟨b0, b1, b2, b3, rest, rfl⟩
  have ht4 : (b0 :: b1 :: b2 :: b3 :: rest).take 4 = [b0, b1, b2, b3] := rfl
  rw [ht4] at hbytes hm
  have hw : word32 ((b0 :: b1 :: b2 :: b3 :: rest).take 4) ≠ magicWord := by
    rw [ht4]
    intro hcontra
    exact hm (word32_magic_bytes b0 b1 b2 b3
      (hbytes b0 (by simp)) (hbytes b1 (by simp)) (hbytes b2 (by simp))
      (hbytes b3 (by simp)) hcontra)
  have hdec : decodeImage (b0 :: b1 :: b2 :: b3 :: rest) =
      Except.error DecodeErr.badMagic := by
    unfold decodeImage
    rw [if_neg (by simp), if_pos hw]
  refine ⟨hdec, fun evs => ⟨by simp [guestTrace, hdec], ?_, ?_⟩⟩ <;>
    intro x <;> simp [guestTrace, hdec]

/-- **C2** witness: an all-zero 8-byte buffer is rejected as bad magic and
yields no mount and no run. -/
theorem c2_bad_magic_rejected_witness :
    decodeImage [0, 0, 0, 0, 0, 0, 0, 0] = Except.error DecodeErr.badMagic ∧
      ∀ evs, guestTrace [0, 0, 0, 0, 0, 0, 0, 0] evs =
               [GuestAct.fatal, GuestAct.powerOff] ∧
             (∀ t, GuestAct.mountAt t ∉ guestTrace [0, 0, 0, 0, 0, 0, 0, 0] evs) ∧
             (∀ i, GuestAct.execRun i ∉ guestTrace [0, 0, 0, 0, 0, 0, 0, 0] evs) :=
  c2_bad_magic_rejected [0, 0, 0, 0, 0, 0, 0, 0] (by decide) (by decide) (by decide)

/-- Recognize a mount action in a guest trace. -/
def isMountAct : GuestAct → Bool
  | .mountAt _ => true
  | _ => false

theorem runSeq_no_mount (evs : Nat → List WaitEvent) :
    ∀ (rs : List Run) (i : Nat), (runSeq evs i rs).filter isMountAct = [] := by
  intro rs
  induction rs with
  | nil => intro i; rfl
  | cons r rs ih =>
    intro i
    by_cases h : runTimedOut r (evs i) = true <;> simp [runSeq, h, isMountAct, ih]

theorem filter_ttyRaw_no_mount (l : List Str) :
    (l.map GuestAct.ttyRaw).filter isMountAct = [] := by
  induction l with
  | nil => rfl
  | cons x xs ih => simp [isMountAct, ih]

theorem filter_mountAt_all (l : List Mount) :
    ((l.map fun m => GuestAct.mountAt (mountTargetPath m.target)).filter isMountAct) =
      l.map fun m => GuestAct.mountAt (mountTargetPath m.target) := by
  induction l with
  | nil => rfl
  | cons m ms ih => simp [isMountAct, ih]

/-- The guest applies exactly the configuration's mounts, in the
configuration's order (`init.c` `main`, mount loop). -/
theorem guestTrace_mount_order (image : List Nat) (evs : Nat → List WaitEvent)
    (cfg : Config) (h : decodeImage image = Except.ok cfg) :
    (guestTrace image evs).filter isMountAct =
      cfg.mount.map fun m => GuestAct.mountAt (mountTargetPath m.target) := by
  by_cases hr : cfg.random.length > 0 <;>
    simp [guestTrace, h, hr, List.filter_append, runSeq_no_mount,
      filter_ttyRaw_no_mount, filter_mountAt_all, isMountAct]

/-- **C3**: for every set of requested mount targets, the host emits the
`Mount` sequence sorted ascending by target path length with ties broken
lexically; in particular `{"/a", "/a/b", "/"}` is emitted as
`"/", "/a", "/a/b"`; and the guest applies exactly the configuration's
mount sequence in its order, so the applied order is the sorted one. -/
theorem c3_mount_order_sorted (ts : List Str) :
    (sortMounts ts).Pairwise (fun a b => mountKeyLe a b = true) ∧
    (sortMounts ts).Perm ts ∧
    sortMounts [[47, 97], [47, 97, 47, 98], [47]] =
      [[47], [47, 97], [47, 97, 47, 98]] ∧
    ∀ (image : List Nat) (evs : Nat → List WaitEvent) (cfg : Config),
      decodeImage image = Except.ok cfg →
      (guestTrace image evs).filter isMountAct =
        cfg.mount.map fun m => GuestAct.mountAt (mountTargetPath m.target) :=
  ⟨sortMounts_pairwise ts, sortMounts_perm ts, by decide,
   fun image evs cfg h => guestTrace_mount_order image evs cfg h⟩

/-- **C4**: with a positive timeout configured, the host performs the
strictly ordered three-stage escalation — soft token then a 5-second
grace, hard token then a 5-second grace, unconditional process-group kill
— skipping no stage and reordering none: if the guest never exits the
action list is exactly the full sequence, and against any monotone exit
oracle the action list is one of the four staged prefixes, so a later
stage never happens without all earlier ones, in order. -/
theorem c4_host_timeout_escalation (timeout : Nat) (exited : Nat → Bool)
    (ht : 0 < timeout)
    (hmono : ∀ j k, j ≤ k → exited j = true → exited k = true) :
    ((∀ k, exited k = false) →
      hostSupervise timeout exited =
        [HostAct.waitUpTo timeout, .writeSoft, .waitUpTo 5, .writeHard,
         .waitUpTo 5, .killGroup, .waitForever]) ∧
    (hostSupervise timeout exited = [HostAct.waitUpTo timeout] ∨
     hostSupervise timeout exited =
       [HostAct.waitUpTo timeout, .writeSoft, .waitUpTo 5] ∨
     hostSupervise timeout exited =
       [HostAct.waitUpTo timeout, .writeSoft, .waitUpTo 5, .writeHard, .waitUpTo 5] ∨
     hostSupervise timeout exited =
       [HostAct.waitUpTo timeout, .writeSoft, .waitUpTo 5, .writeHard,
        .waitUpTo 5, .killGroup, .waitForever]) := by
  have ht0 : ¬ timeout = 0 := by omega
  constructor
  · intro hnx
    simp [hostSupervise, ht0, hnx 0, hnx 1, hnx 2]
  · cases h0 : exited 0 with
    | true =>
      have h1 : exited 1 = true := hmono 0 1 (by omega) h0
      have h2 : exited 2 = true := hmono 0 2 (by omega) h0
      left; simp [hostSupervise, ht0, h0, h1, h2]
    | false =>
      cases h1 : exited 1 with
      | true =>
        have h2 : exited 2 = true := hmono 1 2 (by omega) h1
        right; left; simp [hostSupervise, ht0, h0, h1, h2]
      | false =>
        cases h2 : exited 2 with
        | true => right; right; left; simp [hostSupervise, ht0, h0, h1, h2]
        | false => right; right; right; simp [hostSupervise, ht0, h0, h1, h2]

/-- **C4** witness: timeout 1 second against a guest that never exits. -/
theorem c4_host_timeout_escalation_witness :
    ((∀ k, (fun _ : Nat => false) k = false) →
      hostSupervise 1 (fun _ => false) =
        [HostAct.waitUpTo 1, .writeSoft, .waitUpTo 5, .writeHard,
         .waitUpTo 5, .killGroup, .waitForever]) ∧
    (hostSupervise 1 (fun _ => false) = [HostAct.waitUpTo 1] ∨
     hostSupervise 1 (fun _ => false) =
       [HostAct.waitUpTo 1, .writeSoft, .waitUpTo 5] ∨
     hostSupervise 1 (fun _ => false) =
       [HostAct.waitUpTo 1, .writeSoft, .waitUpTo 5, .writeHard, .waitUpTo 5] ∨
     hostSupervise 1 (fun _ => false) =
       [HostAct.waitUpTo 1, .writeSoft, .waitUpTo 5, .writeHard,
        .waitUpTo 5, .killGroup, .waitForever]) :=
  c4_host_timeout_escalation 1 (fun _ => false) (by decide)
    (fun j k _ h => by simp at h)

/-- **C5**: if a foreground run's wait is interrupted by a timeout control
byte — `handle_run` reports it timed out — then no later run of the
configuration executes: the run loop ends right after that run, followed
only by the sync and power-off. -/
theorem c5_timeout_abandons_runs (runs : List Run) (evs : Nat → List WaitEvent)
    (i : Nat) (r : Run) (hget : runs.get? i = some r)
    (hto : runTimedOut r (evs i) = true)
    (hex : GuestAct.execRun i ∈ runSeq evs 0 runs) :
    (∀ j, i < j → GuestAct.execRun j ∉ runSeq evs 0 runs) ∧
    ∃ pre, runSeq evs 0 runs =
      pre ++ [GuestAct.execRun i, GuestAct.syncDisks, GuestAct.powerOff] := by
  have h := runSeq_stop evs runs 0 i r hget (by simpa using hto) (by simpa using hex)
  simpa using h

/-- **C5** witness: two runs where the first one's wait sees the hard
token — the second run never executes and the trace ends with sync and
power-off. -/
theorem c5_timeout_abandons_runs_witness :
    (∀ j, 0 < j →
      GuestAct.execRun j ∉
        runSeq (fun _ => [WaitEvent.ctrl 89]) 0 [defRun, defRun]) ∧
    ∃ pre, runSeq (fun _ => [WaitEvent.ctrl 89]) 0 [defRun, defRun] =
      pre ++ [GuestAct.execRun 0, GuestAct.syncDisks, GuestAct.powerOff] :=
  c5_timeout_abandons_runs [defRun, defRun] (fun _ => [WaitEvent.ctrl 89]) 0 defRun
    (by decide) (by decide) (by decide)

/-- **C6** counterexample: a foreground wait that receives the hard-timeout
token `'Y'` while the child is still running sends no kill signal at all —
the action list is empty (in particular no `SIGKILL`), the loop merely
returns with `timed_out = true`. -/
theorem c6_hard_token_counterexample :
    (runWait false [WaitEvent.ctrl 89]).2 = true ∧
      (runWait false [WaitEvent.ctrl 89]).1 = [] ∧
      WaitAct.sigKILL ∉ (runWait false [WaitEvent.ctrl 89]).1 := by
  decide

/-- **C6** (amended): when the hard-timeout token arrives on the control
channel during a foreground wait, the guest does not force-kill the
children; it stops waiting immediately — no further event is processed, no
signal is sent there, and the run is reported timed out (so the supervisor
proceeds to power the guest off, which is what terminates the children);
moreover the wait loop never sends `SIGKILL` under any event sequence (its
only signal is the soft-token `SIGTERM`). -/
theorem c6_hard_token_stops_wait :
    (∀ (child cat t : Bool) (es : List WaitEvent),
      runWaitGo child cat t (WaitEvent.ctrl 89 :: es) = ([], true)) ∧
    ∀ (child cat t : Bool) (es : List WaitEvent),
      WaitAct.sigKILL ∉ (runWaitGo child cat t es).1 := by
  constructor
  · intro child cat t es
    simp [runWaitGo]
  · intro child cat t es
    induction es generalizing child cat t with
    | nil => simp [runWaitGo]
    | cons e es ih =>
      cases e with
      | childExit =>
        cases cat <;> simp [runWaitGo, ih]
      | catExit =>
        cases child <;> simp [runWaitGo, ih]
      | ctrl b =>
        by_cases hb : b = 89
        · simp [runWaitGo, hb]
        · cases child <;> simp [runWaitGo, hb, ih]

/-- **C7**: with `PATH="/bin:/usr/bin"` and a command name without a path
separator, resolution tries `/bin/<name>` then `/usr/bin/<name>` in that
order (the first exec attempt is always `/bin/<name>` with the original
argument vector); if a tried candidate fails as an invalid executable
image (`ENOEXEC`), the default-interpreter fallback runs exactly once with
that candidate path and the original arguments and the PATH walk stops —
the attempt list is exactly those two entries; a candidate failing with
any other error is followed by the next PATH entry; and whenever no exec
succeeds the child reports the error and exits non-zero (`exit(1)`). -/
theorem c7_path_resolution (o : Str → ExecRes) (name : Str) (args : List Str)
    (hns : hasSlash name = false) :
    pathCandidates name pathBinUsrBin = [binCand name, usrBinCand name] ∧
    ((resolveExec o name args pathBinUsrBin).1.head? =
      some ⟨binCand name, name :: args⟩) ∧
    (o (binCand name) = ExecRes.err ENOEXEC →
      (resolveExec o name args pathBinUsrBin).1 =
        [⟨binCand name, name :: args⟩,
         ⟨defaultShell, defaultShell :: binCand name :: args⟩]) ∧
    (∀ e, o (binCand name) = ExecRes.err e → e ≠ ENOEXEC →
      ((resolveExec o name args pathBinUsrBin).1.map Attempt.prog).take 2 =
        [binCand name, usrBinCand name]) ∧
    ((¬ ∃ p a2, (resolveExec o name args pathBinUsrBin).2 =
        ChildOutcome.execed p a2) →
      ∃ en, (resolveExec o name args pathBinUsrBin).2 =
        ChildOutcome.exitFail en) := by
  refine ⟨pathCandidates_binUsr name, ?_, ?_, ?_, ?_⟩
  · rcases hoc : o (binCand name) with _ | en
    all_goals simp only [binCand] at hoc
    · simp [resolveExec, hns, pathCandidates_binUsr, execLoop, binCand,
        usrBinCand, hoc]
    · by_cases he : en = ENOEXEC
      · rcases hos : o defaultShell with _ | en2 <;>
          simp [resolveExec, hns, pathCandidates_binUsr, execLoop, binCand,
            usrBinCand, hoc, he, hos]
      · simp [resolveExec, hns, pathCandidates_binUsr, execLoop, binCand,
          usrBinCand, hoc, he]
  · intro hoc
    simp only [binCand] at hoc
    rcases hos : o defaultShell with _ | en2 <;>
      simp [resolveExec, hns, pathCandidates_binUsr, execLoop, binCand,
        usrBinCand, hoc, hos]
  · intro e hoc he
    simp only [binCand] at hoc
    rcases hoc2 : o (usrBinCand name) with _ | en2
    all_goals simp only [usrBinCand] at hoc2
    · simp [resolveExec, hns, pathCandidates_binUsr, execLoop, binCand,
        usrBinCand, hoc, he, hoc2]
    · by_cases he2 : en2 = ENOEXEC
      · rcases hos : o defaultShell with _ | en3 <;>
          simp [resolveExec, hns, pathCandidates_binUsr, execLoop, binCand,
            usrBinCand, hoc, he, hoc2, he2, hos]
      · simp [resolveExec, hns, pathCandidates_binUsr, execLoop, binCand,
          usrBinCand, hoc, he, hoc2, he2]
  · intro hne
    cases hout : (resolveExec o name args pathBinUsrBin).2 with
    | execed p a2 => exact absurd ⟨p, a2, hout⟩ hne
    | exitFail en => exact ⟨en, rfl⟩

/-- Concrete exec oracle for the C7 witness: `/bin/sh` is present but not
a valid executable image (`ENOEXEC`); every other path (notably the
default interpreter) execs fine. -/
def shEnoexecOracle : Str → ExecRes := fun p =>
  if p = binCand [115, 104] then .err ENOEXEC else .ok

/-- **C7** witness: resolving `sh` when `/bin/sh` exists but is not a valid
executable image — the interpreter fallback fires once on `/bin/sh` and
`/usr/bin/sh` is never tried. -/
theorem c7_path_resolution_witness :
    pathCandidates [115, 104] pathBinUsrBin =
      [binCand [115, 104], usrBinCand [115, 104]] ∧
    ((resolveExec shEnoexecOracle [115, 104] [] pathBinUsrBin).1.head? =
      some ⟨binCand [115, 104], [115, 104] :: []⟩) ∧
    (shEnoexecOracle (binCand [115, 104]) = ExecRes.err ENOEXEC →
      (resolveExec shEnoexecOracle [115, 104] [] pathBinUsrBin).1 =
        [⟨binCand [115, 104], [115, 104] :: []⟩,
         ⟨defaultShell, defaultShell :: binCand [115, 104] :: []⟩]) ∧
    (∀ e, shEnoexecOracle (binCand [115, 104]) = ExecRes.err e → e ≠ ENOEXEC →
      ((resolveExec shEnoexecOracle [115, 104] [] pathBinUsrBin).1.map
        Attempt.prog).take 2 = [binCand [115, 104], usrBinCand [115, 104]]) ∧
    ((¬ ∃ p a2, (resolveExec shEnoexecOracle [115, 104] [] pathBinUsrBin).2 =
        ChildOutcome.execed p a2) →
      ∃ en, (resolveExec shEnoexecOracle [115, 104] [] pathBinUsrBin).2 =
        ChildOutcome.exitFail en) :=
  c7_path_resolution shEnoexecOracle [115, 104] [] (by decide)

/-- **C8**: a `Limit` whose resource kind is outside the nine-kind
enumeration — the `UNKNOWN`/zero kind, negatives, or anything above 9 —
makes the limit application fail fatally and the child exits before any
exec attempt (empty attempt list); conversely, valid kinds are exactly
1..9, each mapping to its `RLIMIT_*` resource, and a negative soft or hard
value is applied as `RLIM_INFINITY`. -/
theorem c8_limit_rejection (o : Str → ExecRes) (r : Run) (pathVar : Str) :
    ((∃ l ∈ r.limit, resourceValid l.resource = false) →
      set_limits r.limit = none ∧
      childRun o r pathVar = ([], ChildOutcome.exitFail 22)) ∧
    ((∀ l ∈ r.limit, resourceValid l.resource = true) →
      set_limits r.limit = some (r.limit.map fun l =>
        (rlimitConst l.resource, rlimOf l.soft, rlimOf l.hard))) ∧
    (∀ v : Int, resourceValid v = true ↔ 1 ≤ v ∧ v ≤ 9) ∧
    (∀ v : Int, v < 0 → rlimOf v = RlimVal.unlimited) ∧
    ([1, 2, 3, 4, 5, 6, 7, 8, 9].map rlimitConst = [9, 4, 0, 2, 1, 8, 7, 6, 3]) := by
  refine ⟨?_, set_limits_good r.limit, ?_, ?_, by decide⟩
  · intro hbad
    have hnone := set_limits_bad r.limit hbad
    exact ⟨hnone, by simp [childRun, hnone]⟩
  · intro v
    simp [resourceValid]
  · intro v hv
    rw [rlimOf, if_neg (by omega)]

/-- **C9** (the `readall` slip): at the failing input — a request for 4
bytes whose first `read` returns only 2 — the code returns the full count
4 as success having filled only 2 bytes of the buffer: `got -= chunk`
wraps the `size_t` counter past `count`, so the loop never continues after
a partial read, contradicting the claimed fill-the-buffer loop. -/
theorem c9_readall_partial_read :
    readall [ReadRes.ok 2] 4 = some (ReadallRes.success 4 2) ∧ 2 ≠ 4 := by
  constructor
  · rfl
  · decide

/-- **C10**: every mount target, with or without a leading slash, is
remapped under the confinement root: the effective mount point is
`"/host/"` followed by the target (its leading slash merged), and the
spawned commands are confined by `hostify` into that same `/host`
directory — its first two steps are `chdir("/host")` then `chroot(".")`. -/
theorem c10_mounts_under_host (t : Str) :
    (∃ s, mountTargetPath t = hostRoot ++ 47 :: s ∧ (s = t ∨ t = 47 :: s)) ∧
    ∀ (cwd : Str) (user : Bool) (uid gid : Int),
      (hostifyActs cwd user uid gid).take 2 =
        [HostifyAct.chdir hostRoot, HostifyAct.chrootHere] := by
  constructor
  · cases t with
    | nil => exact ⟨[], by simp [mountTargetPath], Or.inl rfl⟩
    | cons c t' =>
      by_cases hc : c = 47
      · subst hc
        exact ⟨t', by simp [mountTargetPath], Or.inr rfl⟩
      · refine ⟨c :: t', ?_, Or.inl rfl⟩
        simp [mountTargetPath, hc]
  · intro cwd user uid gid
    rfl

end Umlbox
